import Mathlib

/-!
Verification development for the ExpenseFlow versioned event log and
forensic replay engine.

The data model follows models/FinancialEvent.js; the replay engine follows
services/forensicReplayEngine.js; the HTTP handlers follow the forensics
router and the sync delta router. Parts of the repository that are only
referenced from those files (the diff engine, the event processor, the
sync manager) are modelled from the specification, as marked in the
doc comments.

The Mongo collection is embedded as a list of events; a find query becomes
a filter over that list and a sort on the version key becomes an insertion
sort keyed by the version field.
-/

namespace ExpenseFlow

/-- Reconstructed entity state: an association list from field path to a
rendered field value. -/
abbrev EntState := List (String × String)

/-- One entry of a delta payload: changed field path with old and new value. -/
abbrev DiffEntry := String × String × String

/-- Event payload, a tagged variant: either a full snapshot of the state
after the change, or a field-level delta (payload._isDelta distinguishes the
two in the source; payload.diff carries the changed paths). -/
inductive Payload where
  | snapshot : EntState → Payload
  | delta : List DiffEntry → Payload
deriving Repr, DecidableEq

/-- metadata subdocument of financialEventSchema. -/
structure EventMetadata where
  deviceId : String
  correlationId : String
  timestamp : Int
deriving Repr, DecidableEq

/-- One record of financialEventSchema (models/FinancialEvent.js).
eventId stands for the Mongo document _id. -/
structure FinancialEvent where
  eventId : Nat
  userId : Nat
  eventType : String
  entityType : String
  entityId : Nat
  payload : Payload
  previousEventId : Option Nat
  metadata : EventMetadata
  checksum : Nat
  version : Nat
deriving Repr, DecidableEq

/-- The durable collection of events. -/
abbrev EventStore := List FinancialEvent

/-- Deterministic digest of a string: model of a cryptographic hash input
encoding (stands in for the SHA-256 byte digest of the source). -/
def strHash (s : String) : Nat :=
  s.data.foldl (fun h c => h * 131 + c.toNat + 1) 7

/-- Deterministic encoding of a state. -/
def encodeState (s : EntState) : Nat :=
  s.foldl (fun h kv => Nat.pair h (Nat.pair (strHash kv.1) (strHash kv.2))) 3

/-- Deterministic encoding of a diff list. -/
def encodeDiff (d : List DiffEntry) : Nat :=
  d.foldl (fun h e => Nat.pair h (Nat.pair (strHash e.1) (Nat.pair (strHash e.2.1) (strHash e.2.2)))) 5

/-- Deterministic encoding of a payload. -/
def encodePayload : Payload → Nat
  | Payload.snapshot s => Nat.pair 0 (encodeState s)
  | Payload.delta d => Nat.pair 1 (encodeDiff d)

/-- Deterministic encoding of an optional document id. -/
def encodeOptId : Option Nat → Nat
  | none => 0
  | some i => i + 1

/-- Modelled from the spec: the checksum computation is not under src
(services/eventProcessor.js and the event interceptor are absent); the
schema (models/FinancialEvent.js) documents the stored checksum as the
SHA-256 of payload+previousEventId, and the repository documentation says
the hash covers the payload and the parent id. The digest input is
therefore exactly (payload, previousEventId). -/
def computeChecksum (payload : Payload) (previousEventId : Option Nat) : Nat :=
  Nat.pair (encodePayload payload) (encodeOptId previousEventId)

/-- The digest the specification text in section 3 describes: a
deterministic digest over the four inputs (payload, previousEventId,
entityId, version). Named after the spec, to be compared with
computeChecksum, the digest the repository documents. -/
def specChecksum (payload : Payload) (previousEventId : Option Nat)
    (entityId : Nat) (version : Nat) : Nat :=
  Nat.pair (Nat.pair (encodePayload payload) (encodeOptId previousEventId))
    (Nat.pair entityId version)

/-- Modelled from the spec: utils/eventDiffEngine.js is not under src.
Spec 4.2: applying a delta sets each changed path to its new value; a path
absent from the base state is skipped (the MalformedDelta skip-and-log
policy), and applying a snapshot replaces the whole state. This updates one
field when present. -/
def setField : EntState → String → String → EntState
  | [], _, _ => []
  | kv :: rest, path, val =>
      if kv.1 = path then (kv.1, val) :: rest else kv :: setField rest path val

/-- Modelled from the spec: fold one event payload onto a base state
(applySnapshot and applyDelta of spec 4.2). -/
def applyEvent (base : EntState) (e : FinancialEvent) : EntState :=
  match e.payload with
  | Payload.snapshot s => s
  | Payload.delta d => d.foldl (fun st entry => setField st entry.1 entry.2.2) base

/-- Modelled from the spec: eventDiffEngine.reconstruct(base, events) folds
each event payload onto the base state in list order. -/
def reconstruct (base : EntState) (events : List FinancialEvent) : EntState :=
  events.foldl applyEvent base

/-- Comparison key of sort({version: 1}). -/
def versionLE (a b : FinancialEvent) : Prop := a.version ≤ b.version

/-- Strict version order, used to state uniqueness of sorted chains. -/
def versionLT (a b : FinancialEvent) : Prop := a.version < b.version

instance : DecidableRel versionLE := fun a b => inferInstanceAs (Decidable (a.version ≤ b.version))

instance : DecidableRel versionLT := fun a b => inferInstanceAs (Decidable (a.version < b.version))

instance : IsTotal FinancialEvent versionLE := ⟨fun a b => Nat.le_total a.version b.version⟩

instance : IsTrans FinancialEvent versionLE := ⟨fun _ _ _ h h2 => Nat.le_trans h h2⟩

instance : IsAntisymm FinancialEvent versionLT :=
  ⟨fun _ _ h h2 => absurd (Nat.lt_trans h h2) (Nat.lt_irrefl _)⟩

/-- Mongo sort({version: 1}) on a fetched list: stable sort ascending by
the version field. -/
def sortByVersion (l : List FinancialEvent) : List FinancialEvent :=
  List.insertionSort versionLE l

/-- The fetch of replayToTime: the events of the entity with
metadata.timestamp at or below the target, sorted ascending by version. -/
def eventsUpToTime (store : EventStore) (entityId : Nat) (t : Int) : List FinancialEvent :=
  sortByVersion (store.filter
    (fun e => e.entityId == entityId && decide (e.metadata.timestamp ≤ t)))

/-- replayToTime body after date parsing (forensicReplayEngine.replayToTime):
null when the fetch is empty; otherwise reconstruct from the empty state. -/
def replayToTimeAt (store : EventStore) (entityId : Nat) (t : Int) : Option EntState :=
  if (eventsUpToTime store entityId t).isEmpty then none
  else some (reconstruct [] (eventsUpToTime store entityId t))

/-- forensicReplayEngine.replayToTime: new Date(timestamp) is modelled by a
caller-supplied date parser; an invalid date makes the query match no
events, hence null, exactly what binding through the option gives. -/
def replayToTime (parseDate : String → Option Int) (store : EventStore)
    (entityId : Nat) (timestamp : String) : Option EntState :=
  (parseDate timestamp).bind (replayToTimeAt store entityId)

/-- The fetch of replayToVersion: the events of the entity with version at
or below the bound, sorted ascending by version. -/
def eventsUpToVersion (store : EventStore) (entityId : Nat) (version : Int) : List FinancialEvent :=
  sortByVersion (store.filter
    (fun e => e.entityId == entityId && decide ((e.version : Int) ≤ version)))

/-- replayToVersion body for a numeric bound
(forensicReplayEngine.replayToVersion): null when the fetch is empty;
otherwise reconstruct from the empty state. -/
def replayToVersionAt (store : EventStore) (entityId : Nat) (version : Int) : Option EntState :=
  if (eventsUpToVersion store entityId version).isEmpty then none
  else some (reconstruct [] (eventsUpToVersion store entityId version))

/-- forensicReplayEngine.replayToVersion: the route passes parseInt(v), so
the bound may be NaN (none); a NaN bound matches no events, hence null. -/
def replayToVersion (store : EventStore) (entityId : Nat) (version : Option Int) : Option EntState :=
  match version with
  | some n => replayToVersionAt store entityId n
  | none => none

/-- changes field of an audit entry: the delta diff for delta payloads, the
literal FULL_SNAPSHOT marker otherwise. -/
inductive ChangeSummary where
  | diffList : List DiffEntry → ChangeSummary
  | fullSnapshot : ChangeSummary
deriving Repr, DecidableEq

/-- One entry of the forensic audit report. -/
structure AuditEntry where
  version : Nat
  action : String
  actor : String
  timestamp : Int
  changes : ChangeSummary
  correlationId : String
deriving Repr, DecidableEq

/-- The per-event rendering in generateAuditTrail; userName models the
populate of userId with the user document name. -/
def auditEntryOf (userName : Nat → String) (e : FinancialEvent) : AuditEntry :=
  { version := e.version
    action := e.eventType
    actor := userName e.userId
    timestamp := e.metadata.timestamp
    changes := match e.payload with
      | Payload.delta d => ChangeSummary.diffList d
      | Payload.snapshot _ => ChangeSummary.fullSnapshot
    correlationId := e.metadata.correlationId }

/-- The ordered chain of an entity: all of its events sorted ascending by
version (the common fetch of generateAuditTrail and verifyIntegrity). -/
def entityChain (store : EventStore) (entityId : Nat) : List FinancialEvent :=
  sortByVersion (store.filter (fun e => e.entityId == entityId))

/-- forensicReplayEngine.generateAuditTrail: all events of the entity
sorted ascending by version, each mapped to its report entry. -/
def generateAuditTrail (userName : Nat → String) (store : EventStore)
    (entityId : Nat) : List AuditEntry :=
  (entityChain store entityId).map (auditEntryOf userName)

/-- Result of an integrity verification. -/
structure VerifyResult where
  valid : Bool
  brokenAtVersion : Option Nat
deriving Repr, DecidableEq

/-- One link check of the chain walk: the stored checksum must equal the
digest recomputed from the stored fields, and previousEventId must point at
the preceding event of the chain (null before version 1). -/
def eventOk (prev : Option FinancialEvent) (e : FinancialEvent) : Bool :=
  (e.checksum == computeChecksum e.payload e.previousEventId) &&
    (e.previousEventId == prev.map (fun p => p.eventId))

/-- Modelled from the spec: the chain walk of
services/eventProcessor.js verifyIntegrity, which is not under src.
Spec 4.4: walk the chain from version 1 recomputing each checksum and
checking the previous-event link; report the version of the first failure. -/
def verifyChain (prev : Option FinancialEvent) : List FinancialEvent → Option Nat
  | [] => none
  | e :: rest => if eventOk prev e then verifyChain (some e) rest else some e.version

/-- Modelled from the spec: eventProcessor.verifyIntegrity(entityId), not
under src; walks the entity chain in ascending version order and returns
the chain validity with the first broken version, reading the store only. -/
def verifyIntegrity (store : EventStore) (entityId : Nat) : VerifyResult :=
  match verifyChain none (entityChain store entityId) with
  | none => { valid := true, brokenAtVersion := none }
  | some v => { valid := false, brokenAtVersion := some v }

/-- The current maximum version stored for an entity, 0 when the entity has
no events. -/
def maxVersion (store : EventStore) (entityId : Nat) : Nat :=
  (store.filter (fun e => e.entityId == entityId)).foldl (fun m e => max m e.version) 0

/-- The document id of the entity event carrying a given version, if any. -/
def eventIdAtVersion (store : EventStore) (entityId : Nat) (v : Nat) : Option Nat :=
  ((store.filter (fun e => e.entityId == entityId && e.version == v)).head?).map
    (fun e => e.eventId)

/-- The event record built by one append: version = 1 + the current
maximum for the entity, previousEventId the prior event identifier, and
the checksum computed over the documented digest input. -/
def appendEvent (store : EventStore) (entityType : String) (entityId : Nat)
    (eventType : String) (payload : Payload) (userId : Nat) (timestamp : Int)
    (deviceId correlationId : String) (newEventId : Nat) : FinancialEvent :=
  { eventId := newEventId
    userId := userId
    eventType := eventType
    entityType := entityType
    entityId := entityId
    payload := payload
    previousEventId := eventIdAtVersion store entityId (maxVersion store entityId)
    metadata := { deviceId := deviceId, correlationId := correlationId, timestamp := timestamp }
    checksum := computeChecksum payload (eventIdAtVersion store entityId (maxVersion store entityId))
    version := maxVersion store entityId + 1 }

/-- Modelled from the spec: EventStore.append (spec 4.1), not under src.
Persists the new event and returns it; newEventId stands for the fresh
Mongo document id. -/
def append (store : EventStore) (entityType : String) (entityId : Nat)
    (eventType : String) (payload : Payload) (userId : Nat) (timestamp : Int)
    (deviceId correlationId : String) (newEventId : Nat) :
    EventStore × FinancialEvent :=
  (store ++ [appendEvent store entityType entityId eventType payload userId timestamp deviceId correlationId newEventId],
    appendEvent store entityType entityId eventType payload userId timestamp deviceId correlationId newEventId)

/-- The multiset of versions stored for an entity is exactly 1..n where n
is the number of its events: the contiguity part of the data model
invariant for one entity. -/
def versionsContiguous (store : EventStore) (entityId : Nat) : Prop :=
  ((store.filter (fun e => e.entityId == entityId)).map (fun e => e.version)).Perm
    (List.range' 1 (store.filter (fun e => e.entityId == entityId)).length)

instance (store : EventStore) (entityId : Nat) :
    Decidable (versionsContiguous store entityId) := by
  unfold versionsContiguous; infer_instance

/-- The data model invariant: every entity present in the store has
contiguous versions 1..n. Entities with no events satisfy contiguity
trivially, so quantifying over stored entity ids loses nothing and keeps
the predicate decidable on concrete stores. -/
def VersionInvariant (store : EventStore) : Prop :=
  ∀ id ∈ store.map (fun e => e.entityId), versionsContiguous store id

instance (store : EventStore) : Decidable (VersionInvariant store) := by
  unfold VersionInvariant; infer_instance

/-- Every event whose stored checksum is the documented digest of its own
stored fields. -/
def ChecksumInvariant (store : EventStore) : Prop :=
  ∀ e ∈ store, e.checksum = computeChecksum e.payload e.previousEventId

instance (store : EventStore) : Decidable (ChecksumInvariant store) := by
  unfold ChecksumInvariant; infer_instance

/-- JS truthiness of an optional query parameter string: present and
non-empty. -/
def truthy : Option String → Bool
  | none => false
  | some s => !s.isEmpty

/-- Leading decimal digit run of a character list, as a value; none when
the first character is not a digit. -/
def leadingDigits : List Char → Option Nat
  | [] => none
  | c :: rest =>
      if c.isDigit then
        some (rest.takeWhile Char.isDigit |>.foldl
          (fun acc d => acc * 10 + (d.toNat - 48)) (c.toNat - 48))
      else none

/-- JS parseInt on a query value: optional sign then a leading decimal
digit run; none models NaN. -/
def parseJsInt (s : String) : Option Int :=
  match s.data with
  | [] => none
  | c :: rest =>
      if c = '-' then (leadingDigits rest).map (fun n => -(n : Int))
      else if c = '+' then (leadingDigits rest).map (fun n => (n : Int))
      else (leadingDigits s.data).map (fun n => (n : Int))

/-- Response of the replay route: 200 with the success body carrying the
reconstructed state (or null), or 400 with an error body. The catch branch
of the source cannot fire in the pure model. -/
inductive ReplayResponse where
  | ok : Option EntState → ReplayResponse
  | badRequest : String → ReplayResponse
deriving Repr, DecidableEq

/-- HTTP status of a replay response. -/
def ReplayResponse.status : ReplayResponse → Nat
  | ReplayResponse.ok _ => 200
  | ReplayResponse.badRequest _ => 400

/-- GET /api/forensics/replay/:entityId (the forensics router): if the time
query value is truthy, replay to that time; else if v is truthy, replay to
parseInt(v); else respond 400. -/
def replayHandler (parseDate : String → Option Int) (store : EventStore)
    (entityId : Nat) (time v : Option String) : ReplayResponse :=
  if truthy time then
    ReplayResponse.ok (replayToTime parseDate store entityId (time.getD ""))
  else if truthy v then
    ReplayResponse.ok (replayToVersion store entityId (parseJsInt (v.getD "")))
  else
    ReplayResponse.badRequest "Provide time or version (v)"

/-- One record of the SyncLog collection (models/SyncLog.js is not under
src; fields follow the sync documentation: per-user versioned mutation with
its diff payload). -/
structure SyncLogEntry where
  userId : Nat
  version : Nat
  entityType : String
  entityId : Nat
  operation : String
  changes : List (String × String)
deriving Repr, DecidableEq

/-- Comparison key of the per-user mutation order. -/
def syncVersionLE (a b : SyncLogEntry) : Prop := a.version ≤ b.version

/-- Strict per-user mutation order. -/
def syncVersionLT (a b : SyncLogEntry) : Prop := a.version < b.version

instance : DecidableRel syncVersionLE := fun a b => inferInstanceAs (Decidable (a.version ≤ b.version))

instance : DecidableRel syncVersionLT := fun a b => inferInstanceAs (Decidable (a.version < b.version))

/-- Stable ascending sort of sync records by version. -/
def sortSyncByVersion (l : List SyncLogEntry) : List SyncLogEntry :=
  List.insertionSort syncVersionLE l

/-- Modelled from the spec: syncManager.getDifferentialUpdates(userId,
lastVersion), not under src. Per the sync route contract it returns all of
the user's mutations with version strictly greater than the last seen one,
ordered ascending by version. -/
def getDifferentialUpdates (log : List SyncLogEntry) (userId : Nat)
    (lastVersion : Int) : List SyncLogEntry :=
  sortSyncByVersion (log.filter
    (fun c => c.userId == userId && decide (lastVersion < (c.version : Int))))

/-- Body of the delta route response. -/
structure DeltaResponse where
  success : Bool
  v : Int
  count : Nat
  changes : List SyncLogEntry
deriving Repr, DecidableEq

/-- The latestVersion computed by the delta route: the version of the last
returned change, or the request version when nothing is returned. -/
def deltaLatest (changes : List SyncLogEntry) (lastVersion : Int) : Int :=
  match changes.getLast? with
  | some c => (c.version : Int)
  | none => lastVersion

/-- GET /api/sync/delta (the sync router): lastVersion is
parseInt(req.query.v) || 0, then the differential updates since it are
returned with their count and the latest version. -/
def deltaHandler (log : List SyncLogEntry) (userId : Nat)
    (vParam : Option String) : DeltaResponse :=
  { success := true
    v := deltaLatest (getDifferentialUpdates log userId ((vParam.bind parseJsInt).getD 0))
      ((vParam.bind parseJsInt).getD 0)
    count := (getDifferentialUpdates log userId ((vParam.bind parseJsInt).getD 0)).length
    changes := getDifferentialUpdates log userId ((vParam.bind parseJsInt).getD 0) }

/-- The latest version among a user's sync records, 0 when there are none. -/
def latestUserVersion (log : List SyncLogEntry) (userId : Nat) : Int :=
  (log.filter (fun c => c.userId == userId)).foldl
    (fun m c => max m (c.version : Int)) 0

/-- The chain walk positions: each event of a chain paired with the event
preceding it (none before version 1). -/
def chainPairs (prev : Option FinancialEvent) (l : List FinancialEvent) :
    List (FinancialEvent × Option FinancialEvent) :=
  l.zip (prev :: l.map some)

theorem sortByVersion_perm (l : List FinancialEvent) : (sortByVersion l).Perm l :=
  List.perm_insertionSort versionLE l

theorem sortByVersion_sorted (l : List FinancialEvent) :
    (sortByVersion l).Pairwise versionLE :=
  List.sorted_insertionSort versionLE l

theorem mem_sortByVersion {l : List FinancialEvent} {e : FinancialEvent} :
    e ∈ sortByVersion l ↔ e ∈ l :=
  (sortByVersion_perm l).mem_iff

theorem filter_or_split {α : Type} (p q r : α → Bool)
    (hp : ∀ x, p x = (q x || r x)) (hqr : ∀ x, ¬(q x = true ∧ r x = true))
    (l : List α) : (l.filter p).Perm (l.filter q ++ l.filter r) := by
  induction l with
  | nil => simp
  | cons a l ih =>
    by_cases hq : q a = true
    · have hr : r a = false := by
        cases hr2 : r a
        · rfl
        · exact absurd ⟨hq, hr2⟩ (hqr a)
      have hpa : p a = true := by rw [hp a, hq, Bool.true_or]
      simp only [List.filter_cons, hpa, hq, hr, if_true, if_false]
      exact ih.cons a
    · have hqf : q a = false := by
        cases hq2 : q a
        · rfl
        · exact absurd hq2 hq
      by_cases hr : r a = true
      · have hpa : p a = true := by rw [hp a, hqf, hr, Bool.false_or]
        simp only [List.filter_cons, hpa, hqf, hr, if_true, if_false]
        exact (ih.cons a).trans List.perm_middle.symm
      · have hrf : r a = false := by
          cases hr2 : r a
          · rfl
          · exact absurd hr2 hr
        have hpa : p a = false := by rw [hp a, hqf, hrf, Bool.false_or]
        simp only [List.filter_cons, hpa, hqf, hrf, if_false]
        exact ih

theorem versions_nodup {store : EventStore} {id : Nat}
    (h : versionsContiguous store id) :
    ((store.filter (fun e => e.entityId == id)).map (fun e => e.version)).Nodup :=
  h.nodup_iff.mpr (List.nodup_range' 1 _)

theorem versionsContiguous_of_invariant {store : EventStore}
    (h : VersionInvariant store) (id : Nat) : versionsContiguous store id := by
  by_cases hid : id ∈ store.map (fun e => e.entityId)
  · exact h id hid
  · have hnil : store.filter (fun e => e.entityId == id) = [] := by
      rw [List.filter_eq_nil_iff]
      intro a ha hpa
      exact hid (List.mem_map.mpr ⟨a, ha, by simpa using hpa⟩)
    unfold versionsContiguous
    rw [hnil]
    simp

theorem pairwise_versionLT_of_sorted_nodup {l : List FinancialEvent}
    (hs : l.Pairwise versionLE)
    (hn : (l.map (fun e => e.version)).Nodup) :
    l.Pairwise versionLT := by
  have hn2 : (l.map (fun e => e.version)).Pairwise (fun a b => a ≠ b) := hn
  have hne : l.Pairwise (fun a b => a.version ≠ b.version) := List.pairwise_map.mp hn2
  exact (hs.and hne).imp (fun h => Nat.lt_of_le_of_ne h.1 h.2)

theorem eq_of_perm_of_pairwise_versionLT {l₁ l₂ : List FinancialEvent}
    (hp : l₁.Perm l₂) (h1 : l₁.Pairwise versionLT) (h2 : l₂.Pairwise versionLT) :
    l₁ = l₂ :=
  List.eq_of_perm_of_sorted hp h1 h2

theorem foldl_maxVersion_eq (l : List FinancialEvent) (b : Nat) :
    l.foldl (fun m e => max m e.version) b = (l.map (fun e => e.version)).foldl max b := by
  induction l generalizing b with
  | nil => rfl
  | cons a l ih => simp only [List.foldl_cons, List.map_cons, ih]

theorem foldl_max_perm {l₁ l₂ : List Nat} (h : l₁.Perm l₂) :
    ∀ b : Nat, l₁.foldl max b = l₂.foldl max b := by
  induction h with
  | nil => intro b; rfl
  | cons x _ ih => intro b; simp only [List.foldl_cons]; exact ih _
  | swap x y l => intro b; simp only [List.foldl_cons]; rw [Nat.max_right_comm]
  | trans _ _ ih1 ih2 => intro b; exact (ih1 b).trans (ih2 b)

theorem foldl_max_range' (n : Nat) : (List.range' 1 n).foldl max 0 = n := by
  induction n with
  | zero => rfl
  | succ k ih =>
    rw [List.range'_concat, List.foldl_append, ih]
    show max k (1 + 1 * k) = k + 1
    rw [Nat.max_eq_right (by omega)]
    omega

theorem maxVersion_of_contiguous {store : EventStore} {id : Nat}
    (h : versionsContiguous store id) :
    maxVersion store id = (store.filter (fun e => e.entityId == id)).length := by
  unfold maxVersion
  rw [foldl_maxVersion_eq, foldl_max_perm h 0, foldl_max_range']

theorem version_bounds_of_contiguous {store : EventStore} {id : Nat}
    (h : versionsContiguous store id) {e : FinancialEvent}
    (he : e ∈ store.filter (fun x => x.entityId == id)) :
    1 ≤ e.version ∧ e.version ≤ (store.filter (fun x => x.entityId == id)).length := by
  have hv : e.version ∈ (store.filter (fun x => x.entityId == id)).map (fun x => x.version) :=
    List.mem_map_of_mem _ he
  have hr := h.mem_iff.mp hv
  rw [List.mem_range'_1] at hr
  omega

theorem event_unique_of_contiguous {store : EventStore} {id : Nat}
    (h : versionsContiguous store id) {a b : FinancialEvent}
    (ha : a ∈ store) (hb : b ∈ store) (hia : a.entityId = id) (hib : b.entityId = id)
    (hv : a.version = b.version) : a = b := by
  have hnd := versions_nodup h
  have hnd2 : ((store.filter (fun e => e.entityId == id)).map (fun e => e.version)).Pairwise
      (fun x y => x ≠ y) := hnd
  have hnd3 : (store.filter (fun e => e.entityId == id)).Pairwise
      (fun x y => x.version ≠ y.version) := List.pairwise_map.mp hnd2
  by_contra hne
  have hma : a ∈ store.filter (fun e => e.entityId == id) :=
    List.mem_filter.mpr ⟨ha, by simpa using hia⟩
  have hmb : b ∈ store.filter (fun e => e.entityId == id) :=
    List.mem_filter.mpr ⟨hb, by simpa using hib⟩
  have hsym : Symmetric (fun (x y : FinancialEvent) => x.version ≠ y.version) :=
    fun _ _ hxy => fun heq => hxy heq.symm
  exact (hnd3.forall hsym hma hmb hne) hv

theorem eq_singleton_of_mem_nodup_key {l : List FinancialEvent} {e : FinancialEvent}
    (he : e ∈ l) (hkey : ∀ x ∈ l, x.version = e.version)
    (hnd : (l.map (fun x => x.version)).Nodup) : l = [e] := by
  cases l with
  | nil => cases he
  | cons x t =>
    cases t with
    | nil =>
      rcases List.mem_singleton.mp he with rfl
      rfl
    | cons y t2 =>
      exfalso
      have hx : x.version = e.version := hkey x (List.mem_cons_self _ _)
      have hy : y.version = e.version := hkey y (List.mem_cons.mpr (Or.inr (List.mem_cons_self _ _)))
      rw [List.map_cons, List.map_cons, List.nodup_cons] at hnd
      exact hnd.1 (by rw [hx, ← hy]; exact List.mem_cons_self _ _)

theorem filter_version_eq_singleton {store : EventStore} {id : Nat} {e : FinancialEvent}
    (hctg : versionsContiguous store id) (he : e ∈ store) (hid : e.entityId = id) :
    store.filter (fun x => x.entityId == id && x.version == e.version) = [e] := by
  have heS : e ∈ store.filter (fun x => x.entityId == id && x.version == e.version) :=
    List.mem_filter.mpr ⟨he, by simp [hid]⟩
  have hsub : (store.filter (fun x => x.entityId == id && x.version == e.version)).Sublist
      (store.filter (fun x => x.entityId == id)) :=
    List.monotone_filter_right store (fun a hpa => by
      rcases Bool.and_eq_true_iff.mp hpa with ⟨h1, _⟩
      exact h1)
  have hnd : ((store.filter (fun x => x.entityId == id && x.version == e.version)).map
      (fun x => x.version)).Nodup :=
    (hsub.map (fun x => x.version)).nodup (versions_nodup hctg)
  refine eq_singleton_of_mem_nodup_key heS ?_ hnd
  intro x hx
  rcases Bool.and_eq_true_iff.mp ((List.mem_filter.mp hx).2) with ⟨_, h2⟩
  exact Nat.beq_eq_true_eq _ _ ▸ h2

theorem sorted_filter_le_succ {store : EventStore} {id : Nat} {n : Int} {e : FinancialEvent}
    (hctg : versionsContiguous store id) (he : e ∈ store) (hid : e.entityId = id)
    (hv : (e.version : Int) = n + 1) :
    sortByVersion (store.filter (fun x => x.entityId == id && decide ((x.version : Int) ≤ n + 1)))
      = sortByVersion (store.filter (fun x => x.entityId == id && decide ((x.version : Int) ≤ n))) ++ [e] := by
  have hsplit := filter_or_split
    (fun x => x.entityId == id && decide ((x.version : Int) ≤ n + 1))
    (fun x => x.entityId == id && decide ((x.version : Int) ≤ n))
    (fun x => x.entityId == id && x.version == e.version)
    (fun x => by
      rw [Bool.eq_iff_iff]
      simp only [Bool.and_eq_true, Bool.or_eq_true, decide_eq_true_eq, beq_iff_eq]
      constructor
      · rintro ⟨hxe, hle⟩
        rcases Int.le_add_one_iff.mp hle with h | h
        · exact Or.inl ⟨hxe, h⟩
        · refine Or.inr ⟨hxe, ?_⟩
          have : (x.version : Int) = (e.version : Int) := by rw [h, hv]
          exact_mod_cast this
      · rintro (⟨hxe, hle⟩ | ⟨hxe, hveq⟩)
        · exact ⟨hxe, by omega⟩
        · refine ⟨hxe, ?_⟩
          have : (x.version : Int) = (e.version : Int) := by exact_mod_cast hveq
          omega)
    (fun x => by
      simp only [Bool.and_eq_true, decide_eq_true_eq, beq_iff_eq]
      rintro ⟨⟨_, hle⟩, ⟨_, hveq⟩⟩
      have : (x.version : Int) = (e.version : Int) := by exact_mod_cast hveq
      omega)
    store
  rw [filter_version_eq_singleton hctg he hid] at hsplit
  have hsubP : (store.filter (fun x => x.entityId == id && decide ((x.version : Int) ≤ n + 1))).Sublist
      (store.filter (fun x => x.entityId == id)) :=
    List.monotone_filter_right store (fun a hpa => (Bool.and_eq_true_iff.mp hpa).1)
  have hsubQ : (store.filter (fun x => x.entityId == id && decide ((x.version : Int) ≤ n))).Sublist
      (store.filter (fun x => x.entityId == id)) :=
    List.monotone_filter_right store (fun a hpa => (Bool.and_eq_true_iff.mp hpa).1)
  have hltP : (sortByVersion (store.filter
      (fun x => x.entityId == id && decide ((x.version : Int) ≤ n + 1)))).Pairwise versionLT := by
    refine pairwise_versionLT_of_sorted_nodup (sortByVersion_sorted _) ?_
    refine ((sortByVersion_perm _).map (fun x => x.version)).nodup_iff.mpr ?_
    exact (hsubP.map (fun x => x.version)).nodup (versions_nodup hctg)
  have hltQ : (sortByVersion (store.filter
      (fun x => x.entityId == id && decide ((x.version : Int) ≤ n)))).Pairwise versionLT := by
    refine pairwise_versionLT_of_sorted_nodup (sortByVersion_sorted _) ?_
    refine ((sortByVersion_perm _).map (fun x => x.version)).nodup_iff.mpr ?_
    exact (hsubQ.map (fun x => x.version)).nodup (versions_nodup hctg)
  have hltR : (sortByVersion (store.filter
      (fun x => x.entityId == id && decide ((x.version : Int) ≤ n))) ++ [e]).Pairwise versionLT := by
    rw [List.pairwise_append]
    refine ⟨hltQ, List.pairwise_singleton _ _, ?_⟩
    intro a ha b hb
    rcases List.mem_singleton.mp hb with rfl
    have hpa := List.of_mem_filter (mem_sortByVersion.mp ha)
    rcases Bool.and_eq_true_iff.mp hpa with ⟨_, h2⟩
    have hle : (a.version : Int) ≤ n := of_decide_eq_true h2
    show a.version < b.version
    have : (a.version : Int) < (b.version : Int) := by omega
    exact_mod_cast this
  have hperm : (sortByVersion (store.filter
        (fun x => x.entityId == id && decide ((x.version : Int) ≤ n + 1)))).Perm
      (sortByVersion (store.filter
        (fun x => x.entityId == id && decide ((x.version : Int) ≤ n))) ++ [e]) :=
    ((sortByVersion_perm _).trans hsplit).trans
      (List.Perm.append_right [e] (sortByVersion_perm _).symm)
  exact eq_of_perm_of_pairwise_versionLT hperm hltP hltR

theorem chainPairs_cons (prev : Option FinancialEvent) (e : FinancialEvent)
    (rest : List FinancialEvent) :
    chainPairs prev (e :: rest) = (e, prev) :: chainPairs (some e) rest := rfl

theorem verifyChain_eq_none_iff (l : List FinancialEvent) :
    ∀ prev, verifyChain prev l = none ↔ ∀ p ∈ chainPairs prev l, eventOk p.2 p.1 = true := by
  induction l with
  | nil => intro prev; simp [verifyChain, chainPairs]
  | cons e rest ih =>
    intro prev
    rw [chainPairs_cons]
    by_cases h : eventOk prev e = true
    · rw [verifyChain, if_pos h]
      rw [ih (some e)]
      constructor
      · intro hall p hp
        rcases List.mem_cons.mp hp with rfl | hp2
        · exact h
        · exact hall p hp2
      · intro hall p hp
        exact hall p (List.mem_cons_of_mem _ hp)
    · rw [verifyChain, if_neg h]
      constructor
      · intro hcontra; cases hcontra
      · intro hall
        exact absurd (hall (e, prev) (List.mem_cons_self _ _)) h

theorem verifyChain_eq_some (l : List FinancialEvent) :
    ∀ prev k, l.Pairwise versionLT → verifyChain prev l = some k →
      ∃ p ∈ chainPairs prev l, eventOk p.2 p.1 = false ∧ p.1.version = k ∧
        ∀ q ∈ chainPairs prev l, eventOk q.2 q.1 = false → k ≤ q.1.version := by
  induction l with
  | nil => intro prev k _ hk; simp [verifyChain] at hk
  | cons e rest ih =>
    intro prev k hlt hk
    rw [chainPairs_cons]
    by_cases h : eventOk prev e = true
    · rw [verifyChain, if_pos h] at hk
      obtain ⟨p, hpmem, hpf, hpv, hmin⟩ :=
        ih (some e) k (List.pairwise_cons.mp hlt).2 hk
      refine ⟨p, List.mem_cons_of_mem _ hpmem, hpf, hpv, ?_⟩
      intro q hq hqf
      rcases List.mem_cons.mp hq with rfl | hq2
      · rw [h] at hqf; cases hqf
      · exact hmin q hq2 hqf
    · rw [verifyChain, if_neg h] at hk
      have hke : e.version = k := Option.some.inj hk
      have hf : eventOk prev e = false := by
        cases h2 : eventOk prev e
        · rfl
        · exact absurd h2 h
      refine ⟨(e, prev), List.mem_cons_self _ _, hf, hke, ?_⟩
      intro q hq _
      rcases List.mem_cons.mp hq with rfl | hq2
      · exact hke ▸ Nat.le_refl _
      · have hq1 : q.1 ∈ rest := by
          obtain ⟨a, b⟩ := q
          exact (List.of_mem_zip hq2).1
        have h3 : e.version < q.1.version := (List.pairwise_cons.mp hlt).1 q.1 hq1
        omega

theorem getLast_version_max (l : List SyncLogEntry) :
    l.Pairwise syncVersionLT → ∀ a, l.getLast? = some a → ∀ x ∈ l, x.version ≤ a.version := by
  induction l with
  | nil => intro _ a ha; cases ha
  | cons b t ih =>
    intro hlt a ha x hx
    cases t with
    | nil =>
      rcases List.mem_singleton.mp hx with rfl
      have hax : x = a := by simpa using ha
      rw [hax]
    | cons c t2 =>
      rw [List.getLast?_cons_cons] at ha
      rcases List.mem_cons.mp hx with rfl | hx2
      · have hamem : a ∈ c :: t2 := List.mem_of_mem_getLast? (Option.mem_def.mpr ha)
        have h2 : x.version < a.version := (List.pairwise_cons.mp hlt).1 a hamem
        omega
      · exact ih (List.pairwise_cons.mp hlt).2 a ha x hx2

theorem foldl_syncMax_le {l : List SyncLogEntry} {b bound : Int} (hb : b ≤ bound)
    (h : ∀ x ∈ l, (x.version : Int) ≤ bound) :
    l.foldl (fun m c => max m (c.version : Int)) b ≤ bound := by
  induction l generalizing b with
  | nil => exact hb
  | cons a t ih =>
    rw [List.foldl_cons]
    exact ih (max_le hb (h a (List.mem_cons_self _ _)))
      (fun x hx => h x (List.mem_cons_of_mem _ hx))

theorem le_foldl_syncMax_base (l : List SyncLogEntry) (b : Int) :
    b ≤ l.foldl (fun m c => max m (c.version : Int)) b := by
  induction l generalizing b with
  | nil => exact le_refl b
  | cons a t ih =>
    rw [List.foldl_cons]
    exact le_trans (le_max_left _ _) (ih _)

theorem mem_le_foldl_syncMax {l : List SyncLogEntry} {x : SyncLogEntry} (hx : x ∈ l)
    (b : Int) : (x.version : Int) ≤ l.foldl (fun m c => max m (c.version : Int)) b := by
  induction l generalizing b with
  | nil => cases hx
  | cons a t ih =>
    rw [List.foldl_cons]
    rcases List.mem_cons.mp hx with rfl | hx2
    · exact le_trans (le_max_right _ _) (le_foldl_syncMax_base _ _)
    · exact ih hx2 _

/-- One-event demonstration store: entity 1 created. -/
def demoStore1 : EventStore :=
  (append [] "Transaction" 1 "TX_CREATED" (Payload.snapshot [("amount", "10")]) 7 100 "devA" "c1" 501).1

/-- The second demonstration append: entity 1 updated by a delta. -/
def demoAppend2 : EventStore × FinancialEvent :=
  append demoStore1 "Transaction" 1 "TX_UPDATED" (Payload.delta [("amount", "10", "20")]) 7 200 "devA" "c2" 502

/-- Two-event demonstration store. -/
def demoStore : EventStore := demoAppend2.1

/-- The version-2 event of the demonstration store. -/
def demoEvent2 : FinancialEvent := demoAppend2.2

/-- The version-2 event with its version field tampered out-of-band. -/
def demoTampered : FinancialEvent := { demoEvent2 with version := demoEvent2.version + 1 }

/-- C1 (counterexample): the stored checksum of an appended event is not
the digest over the four inputs (payload, previousEventId, entityId,
version) that the spec describes: recomputing that four-input digest from
the stored fields does not reproduce the stored checksum, and tampering
with the stored version leaves the recomputed two-input digest equal to
the stored checksum, so version tampering is undetectable by recomputation. -/
theorem checksum_digest_not_four_inputs_cex :
    demoEvent2.checksum ≠ specChecksum demoEvent2.payload demoEvent2.previousEventId
      demoEvent2.entityId demoEvent2.version ∧
    computeChecksum demoTampered.payload demoTampered.previousEventId = demoTampered.checksum ∧
    demoTampered.version ≠ demoEvent2.version := by decide

/-- C1 (amended): every event stored by append carries as checksum the
deterministic digest computed over exactly (payload, previousEventId), and
recomputing that digest from those stored fields reproduces the stored
checksum for every event of the store. -/
theorem append_checksum_two_input_digest (store : EventStore) (entityType : String)
    (entityId : Nat) (eventType : String) (payload : Payload) (userId : Nat)
    (timestamp : Int) (deviceId correlationId : String) (newEventId : Nat)
    (h : ChecksumInvariant store) :
    ChecksumInvariant (append store entityType entityId eventType payload userId
      timestamp deviceId correlationId newEventId).1 ∧
    (append store entityType entityId eventType payload userId
      timestamp deviceId correlationId newEventId).2.checksum =
      computeChecksum payload (eventIdAtVersion store entityId (maxVersion store entityId)) := by
  constructor
  · intro e hme
    rcases List.mem_append.mp hme with h1 | h2
    · exact h e h1
    · rcases List.mem_singleton.mp h2 with rfl
      rfl
  · rfl

/-- C1 witness: the two-input checksum invariant holds on the concrete
demonstration store produced by two appends. -/
theorem append_checksum_two_input_digest_witness :
    ChecksumInvariant demoStore :=
  (append_checksum_two_input_digest demoStore1 "Transaction" 1 "TX_UPDATED"
    (Payload.delta [("amount", "10", "20")]) 7 200 "devA" "c2" 502 (by decide)).1

/-- C3: if the store satisfies the version invariant, event e is the
entity's event at version n + 1, and replaying to version n produced state
s, then folding e onto s is exactly the state of replaying to version
n + 1. -/
theorem replay_fold_step (store : EventStore) (id : Nat) (n : Int)
    (s : EntState) (e : FinancialEvent)
    (hinv : VersionInvariant store) (he : e ∈ store) (hid : e.entityId = id)
    (hv : (e.version : Int) = n + 1)
    (hs : replayToVersionAt store id n = some s) :
    replayToVersionAt store id (n + 1) = some (applyEvent s e) := by
  have hctg := versionsContiguous_of_invariant hinv id
  have hkey := sorted_filter_le_succ hctg he hid hv
  unfold replayToVersionAt eventsUpToVersion at hs ⊢
  rw [hkey, if_neg (by simp)]
  by_cases hemp : (sortByVersion (store.filter
      (fun x => x.entityId == id && decide ((x.version : Int) ≤ n)))).isEmpty = true
  · rw [if_pos hemp] at hs
    cases hs
  · rw [if_neg hemp] at hs
    have hrec := Option.some.inj hs
    unfold reconstruct at hrec ⊢
    rw [List.foldl_append, hrec]
    rfl

/-- C3 witness: on the demonstration store, replaying to version 2 equals
replaying to version 1 and folding the version-2 event. -/
theorem replay_fold_step_witness :
    replayToVersionAt demoStore 1 2 = some [("amount", "20")] := by
  have h := replay_fold_step demoStore 1 1 [("amount", "10")] demoEvent2
    (by decide) (by decide) (by decide) (by decide) (by decide)
  exact h.trans (by decide)

/-- C5: when an entity has no stored event with version at or below the
bound, replayToVersion returns null (none) to its caller instead of
raising an error. -/
theorem replayToVersion_none_when_no_events (store : EventStore) (id : Nat) (v : Int)
    (h : ∀ e ∈ store, e.entityId = id → ¬((e.version : Int) ≤ v)) :
    replayToVersionAt store id v = none := by
  have hfil : store.filter (fun e => e.entityId == id && decide ((e.version : Int) ≤ v)) = [] := by
    rw [List.filter_eq_nil_iff]
    intro a ha hpa
    rcases Bool.and_eq_true_iff.mp hpa with ⟨h1, h2⟩
    exact absurd (of_decide_eq_true h2) (h a ha (by simpa using h1))
  unfold replayToVersionAt eventsUpToVersion
  rw [hfil]
  rfl

/-- C5 witness: entity 2 has no events in the demonstration store, so the
replay result is null. -/
theorem replayToVersion_none_when_no_events_witness :
    replayToVersionAt demoStore 2 5 = none :=
  replayToVersion_none_when_no_events demoStore 2 5 (by decide)

/-- C8 (counterexample): a request to the replay route supplying both the
time and v query parameters is answered with status 200, not with the 400
the claim requires. -/
theorem replay_route_both_params_cex :
    (replayHandler (fun s => s.toInt?) [] 1 (some "5") (some "3")).status = 200 ∧
    ¬((replayHandler (fun s => s.toInt?) [] 1 (some "5") (some "3")).status = 400) := by
  decide

/-- C8 (amended): the replay route answers 400 exactly when neither time
nor v is truthy; with a truthy time it answers 200 carrying the time
replay (v ignored, even when also supplied); with only a truthy v it
answers 200 carrying the version replay. -/
theorem replay_route_param_rule (pd : String → Option Int) (store : EventStore)
    (id : Nat) (time v : Option String) :
    ((replayHandler pd store id time v).status = 400 ↔
      (truthy time = false ∧ truthy v = false)) ∧
    (truthy time = true →
      replayHandler pd store id time v =
        ReplayResponse.ok (replayToTime pd store id (time.getD ""))) ∧
    (truthy time = false → truthy v = true →
      replayHandler pd store id time v =
        ReplayResponse.ok (replayToVersion store id (parseJsInt (v.getD "")))) := by
  unfold replayHandler
  by_cases ht : truthy time = true
  · simp [ht, ReplayResponse.status]
  · have ht2 : truthy time = false := by
      cases h2 : truthy time
      · rfl
      · exact absurd h2 ht
    by_cases hv : truthy v = true
    · simp [ht2, hv, ReplayResponse.status]
    · have hv2 : truthy v = false := by
        cases h2 : truthy v
        · rfl
        · exact absurd h2 hv
      simp [ht2, hv2, ReplayResponse.status]

/-- C8 witness: a request with neither parameter is answered 400 on the
demonstration store. -/
theorem replay_route_param_rule_witness :
    (replayHandler (fun s => s.toInt?) demoStore 1 none none).status = 400 :=
  (replay_route_param_rule (fun s => s.toInt?) demoStore 1 none none).1.mpr (by decide)

/-- C10: when the time parameter is supplied non-empty, the replay route
invokes the time replay and its result does not depend on v in any way; in
particular no 400 is returned. -/
theorem replay_route_time_precedence (pd : String → Option Int) (store : EventStore)
    (id : Nat) (ts : String) (v : Option String) (h : ts.isEmpty = false) :
    replayHandler pd store id (some ts) v = ReplayResponse.ok (replayToTime pd store id ts) ∧
    replayHandler pd store id (some ts) v = replayHandler pd store id (some ts) none ∧
    (replayHandler pd store id (some ts) v).status = 200 := by
  have ht : truthy (some ts) = true := by simp [truthy, h]
  refine ⟨?_, ?_, ?_⟩ <;> simp [replayHandler, ht, ReplayResponse.status]

/-- C10 witness: with both parameters supplied, the response equals the
time replay on the demonstration store. -/
theorem replay_route_time_precedence_witness :
    replayHandler (fun s => s.toInt?) demoStore 1 (some "150") (some "1") =
      ReplayResponse.ok (replayToTime (fun s => s.toInt?) demoStore 1 "150") :=
  (replay_route_time_precedence (fun s => s.toInt?) demoStore 1 "150" (some "1") (by decide)).1

/-- C6: the fetch of replayToTime holds exactly the entity's events with
metadata.timestamp at or below the bound, in ascending version order (so
timestamp ties are ordered by version); the reconstruction folds exactly
that list, and is null when the list is empty; the string-level entry
point agrees with the parsed bound. -/
theorem replayToTime_boundary_fold (store : EventStore) (id : Nat) (t : Int)
    (l : List FinancialEvent) (hl : l = eventsUpToTime store id t) :
    (∀ e, e ∈ l ↔ (e ∈ store ∧ e.entityId = id ∧ e.metadata.timestamp ≤ t)) ∧
    l.Pairwise versionLE ∧
    l.Perm (store.filter (fun e => e.entityId == id && decide (e.metadata.timestamp ≤ t))) ∧
    (l = [] → replayToTimeAt store id t = none) ∧
    (l ≠ [] → replayToTimeAt store id t = some (reconstruct [] l)) ∧
    (∀ pd ts, pd ts = some t → replayToTime pd store id ts = replayToTimeAt store id t) := by
  subst hl
  refine ⟨?_, sortByVersion_sorted _, sortByVersion_perm _, ?_, ?_, ?_⟩
  · intro e
    rw [eventsUpToTime, mem_sortByVersion, List.mem_filter]
    simp [Bool.and_eq_true_iff, decide_eq_true_eq]
  · intro hnil
    rw [replayToTimeAt, if_pos (by rw [hnil]; rfl)]
  · intro hne
    rw [replayToTimeAt, if_neg (by simp only [List.isEmpty_iff]; exact hne)]
  · intro pd ts hts
    rw [replayToTime, hts]
    rfl

/-- C6 witness: replaying the demonstration store to a time between its
two events reconstructs the state after the first event. -/
theorem replayToTime_boundary_fold_witness :
    replayToTimeAt demoStore 1 150 = some [("amount", "10")] := by
  have h := replayToTime_boundary_fold demoStore 1 150 (eventsUpToTime demoStore 1 150) rfl
  exact (h.2.2.2.2.1 (by decide)).trans (by decide)

/-- C7: the audit trail carries one entry per stored event of the entity,
ascending by version, each entry rendering the event's version, type,
actor, timestamp and correlation id, with the changes column the delta
diff for delta payloads and the full snapshot marker for snapshots. -/
theorem auditTrail_entries (userName : Nat → String) (store : EventStore) (id : Nat)
    (l : List FinancialEvent) (hl : l = entityChain store id) :
    generateAuditTrail userName store id = l.map (auditEntryOf userName) ∧
    l.Perm (store.filter (fun e => e.entityId == id)) ∧
    (generateAuditTrail userName store id).length =
      (store.filter (fun e => e.entityId == id)).length ∧
    (generateAuditTrail userName store id).Pairwise (fun a b => a.version ≤ b.version) ∧
    (∀ e, e ∈ l ↔ (e ∈ store ∧ e.entityId = id)) ∧
    ∀ e ∈ l, (auditEntryOf userName e).version = e.version ∧
      (auditEntryOf userName e).action = e.eventType ∧
      (auditEntryOf userName e).actor = userName e.userId ∧
      (auditEntryOf userName e).timestamp = e.metadata.timestamp ∧
      (auditEntryOf userName e).correlationId = e.metadata.correlationId ∧
      (∀ d, e.payload = Payload.delta d →
        (auditEntryOf userName e).changes = ChangeSummary.diffList d) ∧
      (∀ st, e.payload = Payload.snapshot st →
        (auditEntryOf userName e).changes = ChangeSummary.fullSnapshot) := by
  subst hl
  refine ⟨rfl, sortByVersion_perm _, ?_, ?_, ?_, ?_⟩
  · rw [generateAuditTrail, List.length_map]
    exact (sortByVersion_perm _).length_eq
  · rw [generateAuditTrail]
    exact List.pairwise_map.mpr (sortByVersion_sorted _)
  · intro e
    rw [entityChain, mem_sortByVersion, List.mem_filter]
    simp
  · intro e _
    refine ⟨rfl, rfl, rfl, rfl, rfl, ?_, ?_⟩
    · intro d hd
      simp [auditEntryOf, hd]
    · intro st hst
      simp [auditEntryOf, hst]

/-- C7 witness: the demonstration entity's audit trail has one entry per
stored event. -/
theorem auditTrail_entries_witness :
    (generateAuditTrail (fun _ => "alice") demoStore 1).length = 2 := by
  have h := auditTrail_entries (fun _ => "alice") demoStore 1 (entityChain demoStore 1) rfl
  exact h.2.2.1.trans (by decide)

/-- The demonstration store with the version-2 payload mutated
out-of-band: the stored checksum of that event was computed over the
original payload, so its recomputation no longer matches. -/
def demoBrokenStore : EventStore :=
  demoStore1 ++ [{ demoEvent2 with payload := Payload.delta [("amount", "10", "999")] }]

/-- C2: for an entity with at least one event, verifyIntegrity returns
the record valid true with null brokenAtVersion when every event of the
version-ordered chain passes the checksum recomputation and
previous-event linkage check, and otherwise returns the record valid
false with brokenAtVersion the smallest version whose check fails. The
verifier is a pure reading of the store: it returns only a result
record. -/
theorem verifyIntegrity_chain_characterization (store : EventStore) (id : Nat)
    (hinv : VersionInvariant store)
    (_hne : store.filter (fun e => e.entityId == id) ≠ []) :
    ((∀ p ∈ chainPairs none (entityChain store id), eventOk p.2 p.1 = true) →
      verifyIntegrity store id = { valid := true, brokenAtVersion := none }) ∧
    ((∃ p ∈ chainPairs none (entityChain store id), eventOk p.2 p.1 = false) →
      ∃ k, verifyIntegrity store id = { valid := false, brokenAtVersion := some k } ∧
        (∃ p ∈ chainPairs none (entityChain store id),
          eventOk p.2 p.1 = false ∧ p.1.version = k) ∧
        ∀ q ∈ chainPairs none (entityChain store id),
          eventOk q.2 q.1 = false → k ≤ q.1.version) := by
  have hctg := versionsContiguous_of_invariant hinv id
  have hlt : (entityChain store id).Pairwise versionLT := by
    refine pairwise_versionLT_of_sorted_nodup (sortByVersion_sorted _) ?_
    exact ((sortByVersion_perm _).map (fun x => x.version)).nodup_iff.mpr (versions_nodup hctg)
  unfold verifyIntegrity
  cases hvc : verifyChain none (entityChain store id) with
  | none =>
    constructor
    · intro _
      rfl
    · rintro ⟨p, hp, hpf⟩
      have hall := (verifyChain_eq_none_iff _ none).mp hvc
      rw [hall p hp] at hpf
      cases hpf
  | some k =>
    constructor
    · intro hall
      have hnone := (verifyChain_eq_none_iff _ none).mpr hall
      rw [hvc] at hnone
      cases hnone
    · intro _
      obtain ⟨p, hp, hpf, hpv, hmin⟩ :=
        verifyChain_eq_some (entityChain store id) none k hlt hvc
      exact ⟨k, rfl, ⟨p, hp, hpf, hpv⟩, hmin⟩

/-- C2 witness: the demonstration store, produced by two normal appends,
verifies as a valid chain, and the same store with its version-2 payload
mutated out-of-band verifies as broken at version 2. -/
theorem verifyIntegrity_chain_characterization_witness :
    verifyIntegrity demoStore 1 = { valid := true, brokenAtVersion := none } ∧
    verifyIntegrity demoBrokenStore 1 = { valid := false, brokenAtVersion := some 2 } :=
  ⟨(verifyIntegrity_chain_characterization demoStore 1 (by decide) (by decide)).1 (by decide),
    by decide⟩

/-- C4: the contiguity invariant — every entity's stored versions are
exactly 1..n — is preserved by every append; the appended event receives
version maxVersion + 1, all stored versions are positive, and
(entityId, version) determines a stored event uniquely. -/
theorem append_preserves_version_invariant (store : EventStore) (entityType : String)
    (entityId : Nat) (eventType : String) (payload : Payload) (userId : Nat)
    (timestamp : Int) (deviceId correlationId : String) (newEventId : Nat)
    (hinv : VersionInvariant store) :
    VersionInvariant (append store entityType entityId eventType payload userId
      timestamp deviceId correlationId newEventId).1 ∧
    (append store entityType entityId eventType payload userId
      timestamp deviceId correlationId newEventId).2.version = maxVersion store entityId + 1 ∧
    (∀ x ∈ (append store entityType entityId eventType payload userId
      timestamp deviceId correlationId newEventId).1, 1 ≤ x.version) ∧
    (∀ x ∈ (append store entityType entityId eventType payload userId
        timestamp deviceId correlationId newEventId).1,
      ∀ y ∈ (append store entityType entityId eventType payload userId
        timestamp deviceId correlationId newEventId).1,
      x.entityId = y.entityId → x.version = y.version → x = y) := by
  have hAll : ∀ id2, versionsContiguous
      (store ++ [appendEvent store entityType entityId eventType payload userId
        timestamp deviceId correlationId newEventId]) id2 := by
    intro id2
    have hctg2 := versionsContiguous_of_invariant hinv id2
    by_cases hid : entityId = id2
    · subst hid
      have hfe : List.filter (fun x => x.entityId == entityId)
          [appendEvent store entityType entityId eventType payload userId
            timestamp deviceId correlationId newEventId] =
          [appendEvent store entityType entityId eventType payload userId
            timestamp deviceId correlationId newEventId] := by
        simp [appendEvent]
      unfold versionsContiguous
      rw [List.filter_append, hfe, List.map_append, List.length_append]
      have hev : (appendEvent store entityType entityId eventType payload userId
          timestamp deviceId correlationId newEventId).version =
          (store.filter (fun x => x.entityId == entityId)).length + 1 := by
        show maxVersion store entityId + 1 = _
        rw [maxVersion_of_contiguous hctg2]
      rw [List.map_cons, List.map_nil, hev, List.length_singleton]
      rw [List.range'_concat]
      have h1n : 1 + 1 * (store.filter (fun x => x.entityId == entityId)).length =
          (store.filter (fun x => x.entityId == entityId)).length + 1 := by omega
      rw [h1n]
      exact List.Perm.append_right _ hctg2
    · have hfe : List.filter (fun x => x.entityId == id2)
          [appendEvent store entityType entityId eventType payload userId
            timestamp deviceId correlationId newEventId] = [] := by
        simp [appendEvent]
        exact hid
      unfold versionsContiguous
      rw [List.filter_append, hfe, List.append_nil]
      exact hctg2
  refine ⟨fun id2 _ => hAll id2, rfl, ?_, ?_⟩
  · intro x hx
    have hmem : x ∈ (store ++ [appendEvent store entityType entityId eventType payload userId
        timestamp deviceId correlationId newEventId]).filter (fun e => e.entityId == x.entityId) :=
      List.mem_filter.mpr ⟨hx, by simp⟩
    exact (version_bounds_of_contiguous (hAll x.entityId) hmem).1
  · intro x hx y hy hxy hv
    exact event_unique_of_contiguous (hAll x.entityId) hx hy rfl hxy.symm hv

/-- C4 witness: the invariant holds on the demonstration store and the
second append received version 2. -/
theorem append_preserves_version_invariant_witness :
    VersionInvariant demoStore ∧ demoEvent2.version = 2 := by
  have h := append_preserves_version_invariant demoStore1 "Transaction" 1 "TX_UPDATED"
    (Payload.delta [("amount", "10", "20")]) 7 200 "devA" "c2" 502 (by decide)
  exact ⟨h.1, h.2.1.trans (by decide)⟩

/-- Demonstration sync log: two mutations of user 7 and one of user 8. -/
def demoLog : List SyncLogEntry :=
  [ { userId := 7, version := 1, entityType := "Expense", entityId := 11,
      operation := "CREATE", changes := [("amount", "10")] },
    { userId := 7, version := 2, entityType := "Expense", entityId := 11,
      operation := "UPDATE", changes := [("amount", "20")] },
    { userId := 8, version := 1, entityType := "Expense", entityId := 12,
      operation := "CREATE", changes := [] } ]

/-- C9: under strictly version-ordered per-user sync records and a last
seen version the caller has really seen (0 or an existing one), the delta
route answers success with exactly the caller's mutations after that
version in ascending version order, a count equal to their number, the
response v equal to the caller's latest version, and an empty changes
list when the caller is already current. -/
theorem delta_route_spec (log : List SyncLogEntry) (userId : Nat) (vParam : Option String)
    (lastVersion : Int) (hlv : lastVersion = (vParam.bind parseJsInt).getD 0)
    (hsorted : (log.filter (fun c => c.userId == userId)).Pairwise syncVersionLT)
    (hseen : lastVersion = 0 ∨ ∃ c ∈ log, c.userId = userId ∧ (c.version : Int) = lastVersion) :
    (deltaHandler log userId vParam).success = true ∧
    (∀ c, c ∈ (deltaHandler log userId vParam).changes ↔
      (c ∈ log ∧ c.userId = userId ∧ lastVersion < (c.version : Int))) ∧
    ((deltaHandler log userId vParam).changes).Pairwise syncVersionLT ∧
    (deltaHandler log userId vParam).count = ((deltaHandler log userId vParam).changes).length ∧
    (deltaHandler log userId vParam).v = latestUserVersion log userId ∧
    ((∀ c ∈ log, c.userId = userId → (c.version : Int) ≤ lastVersion) →
      (deltaHandler log userId vParam).changes = []) := by
  have hD : deltaHandler log userId vParam =
      { success := true
        v := deltaLatest (getDifferentialUpdates log userId lastVersion) lastVersion
        count := (getDifferentialUpdates log userId lastVersion).length
        changes := getDifferentialUpdates log userId lastVersion } := by
    rw [deltaHandler, ← hlv]
  have hsub : ((log.filter (fun c => c.userId == userId)).filter
        (fun c => decide (lastVersion < (c.version : Int)))).Sublist
      (log.filter (fun c => c.userId == userId)) := List.filter_sublist _
  have hchanges : getDifferentialUpdates log userId lastVersion =
      (log.filter (fun c => c.userId == userId)).filter
        (fun c => decide (lastVersion < (c.version : Int))) := by
    rw [getDifferentialUpdates]
    have hcomb : log.filter (fun c => c.userId == userId && decide (lastVersion < (c.version : Int))) =
        (log.filter (fun c => c.userId == userId)).filter
          (fun c => decide (lastVersion < (c.version : Int))) := by
      rw [List.filter_filter]
      refine List.filter_congr ?_
      intro x _
      exact Bool.and_comm _ _
    rw [hcomb]
    exact List.Sorted.insertionSort_eq
      ((List.Pairwise.sublist hsub hsorted).imp (fun h => Nat.le_of_lt h))
  rw [hD]
  refine ⟨rfl, ?_, ?_, rfl, ?_, ?_⟩
  · intro c
    show c ∈ getDifferentialUpdates log userId lastVersion ↔ _
    rw [hchanges, List.mem_filter, List.mem_filter]
    simp [and_assoc]
  · show (getDifferentialUpdates log userId lastVersion).Pairwise syncVersionLT
    rw [hchanges]
    exact List.Pairwise.sublist hsub hsorted
  · show deltaLatest (getDifferentialUpdates log userId lastVersion) lastVersion =
      latestUserVersion log userId
    rw [hchanges, deltaLatest]
    cases hlast : ((log.filter (fun c => c.userId == userId)).filter
        (fun c => decide (lastVersion < (c.version : Int)))).getLast? with
    | none =>
      show lastVersion = latestUserVersion log userId
      have hempty := List.getLast?_eq_none_iff.mp hlast
      have hall : ∀ c ∈ log.filter (fun c => c.userId == userId),
          (c.version : Int) ≤ lastVersion := by
        intro c hc
        have := List.filter_eq_nil_iff.mp hempty c hc
        simp only [decide_eq_true_eq] at this
        omega
      rcases hseen with h0 | ⟨c, hc, hcu, hcv⟩
      · subst h0
        refine le_antisymm (le_foldl_syncMax_base _ _) (foldl_syncMax_le (le_refl 0) hall)
      · have hcmem : c ∈ log.filter (fun x => x.userId == userId) :=
          List.mem_filter.mpr ⟨hc, by simp [hcu]⟩
        refine le_antisymm ?_ ?_
        · rw [← hcv]
          exact mem_le_foldl_syncMax hcmem 0
        · exact foldl_syncMax_le (by omega) hall
    | some a =>
      show (a.version : Int) = latestUserVersion log userId
      have hamem2 := List.mem_of_mem_getLast? (Option.mem_def.mpr hlast)
      have hamem : a ∈ log.filter (fun c => c.userId == userId) :=
        (List.mem_filter.mp hamem2).1
      have halast : lastVersion < (a.version : Int) := by
        have := (List.mem_filter.mp hamem2).2
        simpa using this
      refine le_antisymm (mem_le_foldl_syncMax hamem 0) ?_
      refine foldl_syncMax_le (by omega) ?_
      intro x hx
      by_cases hxv : lastVersion < (x.version : Int)
      · have hxmem : x ∈ (log.filter (fun c => c.userId == userId)).filter
            (fun c => decide (lastVersion < (c.version : Int))) :=
          List.mem_filter.mpr ⟨hx, by simpa using hxv⟩
        have := getLast_version_max _ (List.Pairwise.sublist hsub hsorted) a hlast x hxmem
        exact_mod_cast this
      · omega
  · intro hcur
    show getDifferentialUpdates log userId lastVersion = []
    rw [hchanges, List.filter_eq_nil_iff]
    intro c hc
    have hcu : c.userId = userId := by
      have := (List.mem_filter.mp hc).2
      simpa using this
    have := hcur c (List.mem_filter.mp hc).1 hcu
    simp only [decide_eq_true_eq]
    omega

/-- C9 witness: a caller at version 1 of a two-mutation log receives the
single later mutation with the latest version. -/
theorem delta_route_spec_witness :
    (deltaHandler demoLog 7 (some "1")).success = true ∧
    (deltaHandler demoLog 7 (some "1")).v = latestUserVersion demoLog 7 := by
  have h := delta_route_spec demoLog 7 (some "1") 1 (by decide) (by decide)
    (Or.inr (by decide))
  exact ⟨h.1, h.2.2.2.2.1⟩

end ExpenseFlow
